import Mathlib

/-!
# Verification of the ublk-vram virtual block-device engine

Shallow embedding of the core of the `ublk-vram` repository:

* `LOBuffer` — one backing memory segment (`src/local/memory.rs`),
  with its `within` / `remaining` / `read` / `write` operations;
* `VMemory` — the address-space composer (`src/lib.rs`), whose
  `new` assigns running prefix-sum base offsets and whose `read` /
  `write` split a request across segments by linear scan;
* `handleIoCmd` — the per-command dispatch of `src/ublk/server.rs`
  (offset/length clipping, opcode routing);
* `ioTaskRun` — the per-tag fetch/dispatch/commit loop of `io_task`.

Bytes are modelled as `Nat`; segment payloads are `List Nat`.
Machine-integer wraparound is modelled explicitly where it matters:
`start_sector << 9` is a 64-bit shift (`% 2^64`), `nr_sectors << 9`
a 32-bit shift (`% 2^32`), and the final `as i32` cast by `i32ofNat`.
A fallible segment call returns `Option`; the composer's `-EIO` /
success return code is modelled by `Option` (read) and a `Bool`
success flag (write), the updated segment states being returned
explicitly.
-/

/-- One local memory segment: `LOBuffer { buffer, offset, size }` from
`src/local/memory.rs`.  The backing allocation of `size` bytes is the
list `data` (invariant `data.length = size`, established by
`LOBuffer::new` which allocates exactly `size` zeroed bytes). -/
structure LOBuffer where
  offset : Nat
  size : Nat
  data : List Nat
  deriving Repr, DecidableEq

namespace LOBuffer

/-- `LOBuffer::within`: `offset >= self.offset && offset < self.offset + self.size`. -/
def within (b : LOBuffer) (o : Nat) : Bool :=
  decide (b.offset ≤ o ∧ o < b.offset + b.size)

/-- `VBuffer::remaining` for `LOBuffer`: `Some(size + offset - o)` when
`within`, else `None`. -/
def remaining (b : LOBuffer) (o : Nat) : Option Nat :=
  if b.within o then some (b.size + b.offset - o) else none

/-- Splice `src` into `d` at index `i` (the effect of
`copy_from_nonoverlapping` at local offset `i`). -/
def spliceList (d : List Nat) (i : Nat) (src : List Nat) : List Nat :=
  d.take i ++ src ++ d.drop (i + src.length)

/-- `LOBuffer::read`: bails when `!within(offset)` or when
`local_offset + data.len() > size`; otherwise copies `len` bytes out
starting at `local_offset = offset - self.offset`.  The copied bytes
are returned (`none` models the `bail!` error). -/
def read (b : LOBuffer) (o : Nat) (len : Nat) : Option (List Nat) :=
  if b.within o then
    if b.size < (o - b.offset) + len then none
    else some ((b.data.drop (o - b.offset)).take len)
  else none

/-- `LOBuffer::write`: bails under the same two bounds checks as `read`;
otherwise copies `src` into the payload at `local_offset`. -/
def write (b : LOBuffer) (o : Nat) (src : List Nat) : Option LOBuffer :=
  if b.within o then
    if b.size < (o - b.offset) + src.length then none
    else some ⟨b.offset, b.size, spliceList b.data (o - b.offset) src⟩
  else none

end LOBuffer

/-- Sum of the segments' sizes — the `size` accumulated by
`VMemory::new`. -/
def sumSizes (bs : List LOBuffer) : Nat :=
  match bs with
  | [] => 0
  | b :: bs => b.size + sumSizes bs

/-- Concatenation of the segments' payloads, in order — the contents of
the equivalent single monolithic buffer. -/
def dataFlat (bs : List LOBuffer) : List Nat :=
  match bs with
  | [] => []
  | b :: bs => b.data ++ dataFlat bs

/-- The base-offset assignment loop of `VMemory::new`:
`for i in vrams.iter_mut() { i.offset(size); size += i.size(); }`. -/
def assignOffsets (bs : List LOBuffer) (n : Nat) : List LOBuffer :=
  match bs with
  | [] => []
  | b :: bs => { b with offset := n } :: assignOffsets bs (n + b.size)

/-- The address-space composer `VMemory` of `src/lib.rs`. -/
structure VMemory where
  vrams : List LOBuffer
  size : Nat
  deriving Repr

/-- `VMemory::new`: assigns each segment's base as the running prefix
sum of the preceding sizes and records the total size. -/
def VMemory.new (bs : List LOBuffer) : VMemory :=
  ⟨assignOffsets bs 0, sumSizes bs⟩

/-- The linear-scan loop of `VMemory::read`: skip segments whose
`remaining` is `none`; on `some lr` read `min rem lr` bytes from the
segment, then continue with the advanced offset until `rem` reaches `0`
(success, concatenated bytes) or the segments are exhausted with
`rem > 0` (`-EIO`, modelled `none`).  A segment-level read error is
also `-EIO`/`none`. -/
def readLoop (bs : List LOBuffer) (gofs rem : Nat) : Option (List Nat) :=
  match bs with
  | [] => if rem = 0 then some [] else none
  | v :: vs =>
    match v.remaining gofs with
    | none => readLoop vs gofs rem
    | some lr =>
      let ll := min rem lr
      match v.read gofs ll with
      | none => none
      | some bytes =>
        if rem - ll = 0 then some bytes
        else
          match readLoop vs (gofs + ll) (rem - ll) with
          | none => none
          | some rest => some (bytes ++ rest)

/-- The linear-scan loop of `VMemory::write`; returns the updated
segment list together with a success flag (`false` models `-EIO`).
On a segment-level write error the loop returns immediately, leaving
the remaining segments untouched; segments already written stay
written. -/
def writeLoop (bs : List LOBuffer) (gofs : Nat) (src : List Nat) :
    List LOBuffer × Bool :=
  match bs with
  | [] => ([], decide (src.length = 0))
  | v :: vs =>
    match v.remaining gofs with
    | none =>
      let w := writeLoop vs gofs src
      (v :: w.1, w.2)
    | some lr =>
      let ll := min src.length lr
      match v.write gofs (src.take ll) with
      | none => (v :: vs, false)
      | some v2 =>
        if src.length - ll = 0 then (v2 :: vs, true)
        else
          let w := writeLoop vs (gofs + ll) (src.drop ll)
          (v2 :: w.1, w.2)

/-- `VMemory::read` (`src/lib.rs`): returns the transferred bytes, or
`none` for the `-EIO` return. -/
def VMemory.read (m : VMemory) (o len : Nat) : Option (List Nat) :=
  readLoop m.vrams o len

/-- `VMemory::write` (`src/lib.rs`): returns the updated segments and
the success flag (`false` for the `-EIO` return). -/
def VMemory.write (m : VMemory) (o : Nat) (src : List Nat) :
    List LOBuffer × Bool :=
  writeLoop m.vrams o src

/-- Bases form the running prefix sum starting at `base` — the state of
the segment list after `VMemory::new` (spec §3: contiguous, no gaps,
no overlaps). -/
def chained (base : Nat) (bs : List LOBuffer) : Prop :=
  match bs with
  | [] => True
  | b :: bs => b.offset = base ∧ chained (base + b.size) bs

/-- Every segment's payload length equals its recorded size (true of
every `LOBuffer` the program ever builds). -/
def wfData (bs : List LOBuffer) : Prop :=
  ∀ b ∈ bs, b.data.length = b.size

/-- Monolithic-buffer read, worded from the spec (§4.2): a single flat
buffer of the concatenated contents, sliced at `[o, o+len)`. -/
def monoRead (flat : List Nat) (o len : Nat) : Option (List Nat) :=
  if o + len ≤ flat.length then some ((flat.drop o).take len) else none

/-- Monolithic-buffer write, worded from the spec (§4.2). -/
def monoWrite (flat : List Nat) (o : Nat) (src : List Nat) :
    Option (List Nat) :=
  if o + src.length ≤ flat.length then
    some (flat.take o ++ src ++ flat.drop (o + src.length))
  else none

/-- Insert `a` into `l` at position `n` (keeps statements about the
zero-size-segment identity readable). -/
def insertAt (l : List α) (n : Nat) (a : α) : List α :=
  l.take n ++ a :: l.drop n

/-! ## The ublk dispatch layer (`src/ublk/server.rs`) -/

/-- One kernel command descriptor `ublksrv_io_desc` as consumed by
`handle_io_cmd`: `op_flags : u32`, `nr_sectors : u32`,
`start_sector : u64`. -/
structure IoDesc where
  op_flags : Nat
  nr_sectors : Nat
  start_sector : Nat
  deriving Repr, DecidableEq

/-- `UBLK_IO_OP_READ`. -/
def UBLK_IO_OP_READ : Nat := 0
/-- `UBLK_IO_OP_WRITE`. -/
def UBLK_IO_OP_WRITE : Nat := 1
/-- `UBLK_IO_OP_FLUSH`. -/
def UBLK_IO_OP_FLUSH : Nat := 2
/-- `UBLK_IO_OP_DISCARD`. -/
def UBLK_IO_OP_DISCARD : Nat := 3
/-- `-libc::EIO`. -/
def EIO_NEG : Int := -5
/-- `-libc::EINVAL`. -/
def NEG_EINVAL : Int := -22
/-- `libublk::sys::UBLK_IO_RES_ABORT` (`-ENODEV`). -/
def UBLK_IO_RES_ABORT : Int := -19

/-- The Rust `usize as i32` cast: truncate to the low 32 bits,
reinterpret as two's complement. -/
def i32ofNat (n : Nat) : Int :=
  if n % 2 ^ 32 < 2 ^ 31 then ((n % 2 ^ 32 : Nat) : Int)
  else ((n % 2 ^ 32 : Nat) : Int) - 2 ^ 32

/-- `global_offset = global_limit.min(iod.start_sector << 9)` — the
shift is a wrapping 64-bit shift. -/
def clippedOffset (devSize : Nat) (iod : IoDesc) : Nat :=
  min devSize ((iod.start_sector * 512) % 2 ^ 64)

/-- The clipped request length of `handle_io_cmd`:
`global_length = (iod.nr_sectors << 9) as usize` (a wrapping 32-bit
shift), then `if global_offset + global_length >= global_limit`
clip to `global_limit - global_offset`. -/
def clippedLength (devSize : Nat) (iod : IoDesc) : Nat :=
  if devSize ≤ clippedOffset devSize iod + (iod.nr_sectors * 512) % 2 ^ 32 then
    devSize - clippedOffset devSize iod
  else (iod.nr_sectors * 512) % 2 ^ 32

/-- `handle_io_cmd` of `src/ublk/server.rs`: clip offset and length
against `dev_size`; if the clipped length is zero return it at once
(success, no segment call); otherwise dispatch on the low byte of
`op_flags` — READ/WRITE run the segment scan loop (`-EIO` on failure),
FLUSH is a no-op, anything else returns `-EINVAL`; on success the
clipped length is returned through the `as i32` cast.  The result pairs
the returned code with the segment states after the call. -/
def handleIoCmd (devSize : Nat) (iod : IoDesc) (vrams : List LOBuffer)
    (buf : List Nat) : Int × List LOBuffer :=
  let gofs := clippedOffset devSize iod
  let glen := clippedLength devSize iod
  if 0 < glen then
    let op := iod.op_flags % 256
    if op = UBLK_IO_OP_READ then
      match readLoop vrams gofs glen with
      | none => (EIO_NEG, vrams)
      | some _ => (i32ofNat glen, vrams)
    else if op = UBLK_IO_OP_WRITE then
      let w := writeLoop vrams gofs (buf.take glen)
      if w.2 then (i32ofNat glen, w.1) else (EIO_NEG, w.1)
    else if op = UBLK_IO_OP_FLUSH then (i32ofNat glen, vrams)
    else (NEG_EINVAL, vrams)
  else (i32ofNat glen, vrams)

/-- The offset computation as the claim words it: a mathematical
(non-wrapping) product `start_sector * 512`. -/
def claimOffsetSpec (devSize : Nat) (iod : IoDesc) : Nat :=
  min devSize (iod.start_sector * 512)

/-- The clipped length as the claim words it (mathematical products). -/
def claimLengthSpec (devSize : Nat) (iod : IoDesc) : Nat :=
  if devSize ≤ claimOffsetSpec devSize iod + iod.nr_sectors * 512 then
    devSize - claimOffsetSpec devSize iod
  else iod.nr_sectors * 512

/-- The `io_task` loop of `src/ublk/server.rs`, run against a finite
trace of ring completion results: each iteration submits one
fetch/commit command and consumes the next completion; on
`UBLK_IO_RES_ABORT` the loop breaks.  Returns the number of submitted
commands and whether the terminal (aborted) state was reached. -/
def ioTaskRun (trace : List Int) : Nat × Bool :=
  match trace with
  | [] => (0, false)
  | r :: rs =>
    if r = UBLK_IO_RES_ABORT then (1, true)
    else (1 + (ioTaskRun rs).1, (ioTaskRun rs).2)

/-! ## Basic lemmas -/

theorem LOBuffer.within_iff (b : LOBuffer) (o : Nat) :
    b.within o = true ↔ (b.offset ≤ o ∧ o < b.offset + b.size) := by
  simp [LOBuffer.within]

theorem LOBuffer.remaining_pos (b : LOBuffer) (o : Nat)
    (h1 : b.offset ≤ o) (h2 : o < b.offset + b.size) :
    b.remaining o = some (b.size + b.offset - o) := by
  rw [LOBuffer.remaining, if_pos ((LOBuffer.within_iff b o).2 ⟨h1, h2⟩)]

theorem LOBuffer.remaining_neg (b : LOBuffer) (o : Nat)
    (h : o < b.offset ∨ b.offset + b.size ≤ o) :
    b.remaining o = none := by
  rw [LOBuffer.remaining, if_neg]
  intro hw
  have := (LOBuffer.within_iff b o).1 hw
  omega

theorem LOBuffer.read_ok (b : LOBuffer) (o len : Nat)
    (h1 : b.offset ≤ o) (h2 : o < b.offset + b.size)
    (h3 : (o - b.offset) + len ≤ b.size) :
    b.read o len = some ((b.data.drop (o - b.offset)).take len) := by
  rw [LOBuffer.read, if_pos ((LOBuffer.within_iff b o).2 ⟨h1, h2⟩), if_neg]
  omega

theorem LOBuffer.write_ok (b : LOBuffer) (o : Nat) (src : List Nat)
    (h1 : b.offset ≤ o) (h2 : o < b.offset + b.size)
    (h3 : (o - b.offset) + src.length ≤ b.size) :
    b.write o src =
      some ⟨b.offset, b.size, LOBuffer.spliceList b.data (o - b.offset) src⟩ := by
  rw [LOBuffer.write, if_pos ((LOBuffer.within_iff b o).2 ⟨h1, h2⟩), if_neg]
  omega

theorem length_spliceList (d : List Nat) (i : Nat) (src : List Nat)
    (h : i + src.length ≤ d.length) :
    (LOBuffer.spliceList d i src).length = d.length := by
  simp [LOBuffer.spliceList]
  omega

theorem length_assignOffsets (bs : List LOBuffer) (n : Nat) :
    (assignOffsets bs n).length = bs.length := by
  induction bs generalizing n with
  | nil => rfl
  | cons b bs ih => simp [assignOffsets, ih]

theorem sumSizes_assignOffsets (bs : List LOBuffer) (n : Nat) :
    sumSizes (assignOffsets bs n) = sumSizes bs := by
  induction bs generalizing n with
  | nil => rfl
  | cons b bs ih => simp [assignOffsets, sumSizes, ih]

theorem dataFlat_assignOffsets (bs : List LOBuffer) (n : Nat) :
    dataFlat (assignOffsets bs n) = dataFlat bs := by
  induction bs generalizing n with
  | nil => rfl
  | cons b bs ih => simp [assignOffsets, dataFlat, ih]

theorem wfData_assignOffsets (bs : List LOBuffer) (n : Nat)
    (hw : wfData bs) : wfData (assignOffsets bs n) := by
  induction bs generalizing n with
  | nil => exact hw
  | cons b bs ih =>
    intro x hx
    rcases List.mem_cons.1 hx with hx | hx
    · subst hx; exact hw b (by simp)
    · exact ih (n + b.size) (fun y hy => hw y (by simp [hy])) x hx

theorem chained_assignOffsets (bs : List LOBuffer) (n : Nat) :
    chained n (assignOffsets bs n) := by
  induction bs generalizing n with
  | nil => trivial
  | cons b bs ih => exact ⟨rfl, ih (n + b.size)⟩

theorem sumSizes_append (as bs : List LOBuffer) :
    sumSizes (as ++ bs) = sumSizes as + sumSizes bs := by
  induction as with
  | nil => simp [sumSizes]
  | cons a as ih => simp [sumSizes, ih]; omega

theorem assignOffsets_append (as bs : List LOBuffer) (n : Nat) :
    assignOffsets (as ++ bs) n =
      assignOffsets as n ++ assignOffsets bs (n + sumSizes as) := by
  induction as generalizing n with
  | nil => simp [assignOffsets, sumSizes]
  | cons a as ih =>
    simp [assignOffsets, ih, sumSizes]
    ring_nf

theorem chained_ge (bs : List LOBuffer) (base : Nat) (hc : chained base bs) :
    ∀ b ∈ bs, base ≤ b.offset := by
  induction bs generalizing base with
  | nil => intro b hb; cases hb
  | cons v vs ih =>
    rcases hc with ⟨hoff, hc'⟩
    intro b hb
    rcases List.mem_cons.1 hb with hb | hb
    · subst hb; omega
    · have := ih (base + v.size) hc' b hb
      omega

theorem remaining_none_before (bs : List LOBuffer) (base o : Nat)
    (hc : chained base bs) (ho : o < base) :
    ∀ b ∈ bs, b.remaining o = none := by
  intro b hb
  have := chained_ge bs base hc b hb
  exact LOBuffer.remaining_neg b o (Or.inl (by omega))

theorem remaining_none_after (bs : List LOBuffer) (base o : Nat)
    (hc : chained base bs) (ho : base + sumSizes bs ≤ o) :
    ∀ b ∈ bs, b.remaining o = none := by
  induction bs generalizing base with
  | nil => intro b hb; cases hb
  | cons v vs ih =>
    rcases hc with ⟨hoff, hc'⟩
    intro b hb
    rcases List.mem_cons.1 hb with hb | hb
    · subst hb
      exact LOBuffer.remaining_neg b o (Or.inr (by simp [sumSizes] at ho; omega))
    · exact ih (base + v.size) hc' (by simp [sumSizes] at ho; omega) b hb

theorem take_append_left (u w : List Nat) (n : Nat) (h : n ≤ u.length) :
    (u ++ w).take n = u.take n := by
  rw [List.take_append_eq_append_take, Nat.sub_eq_zero_of_le h,
    List.take_zero, List.append_nil]

theorem take_append_split (u w : List Nat) (n : Nat) (h : u.length ≤ n) :
    (u ++ w).take n = u ++ w.take (n - u.length) := by
  rw [List.take_append_eq_append_take, List.take_of_length_le h]

theorem drop_append_left (u w : List Nat) (n : Nat) (h : n ≤ u.length) :
    (u ++ w).drop n = u.drop n ++ w := by
  rw [List.drop_append_eq_append_drop, Nat.sub_eq_zero_of_le h, List.drop_zero]

theorem drop_append_right (u w : List Nat) (n : Nat) (h : u.length ≤ n) :
    (u ++ w).drop n = w.drop (n - u.length) := by
  rw [List.drop_append_eq_append_drop, List.drop_eq_nil_of_le h, List.nil_append]

theorem dataFlat_length (bs : List LOBuffer) (hw : wfData bs) :
    (dataFlat bs).length = sumSizes bs := by
  induction bs with
  | nil => rfl
  | cons b bs ih =>
    simp [dataFlat, sumSizes, hw b (by simp),
      ih (fun y hy => hw y (by simp [hy]))]

theorem readLoop_eq (bs : List LOBuffer) (base gofs rem : Nat)
    (hc : chained base bs) (hw : wfData bs) (hbg : base ≤ gofs) :
    readLoop bs gofs rem =
      if rem ≤ base + sumSizes bs - gofs then
        some (((dataFlat bs).drop (gofs - base)).take rem)
      else none := by
  induction bs generalizing base gofs rem with
  | nil =>
    simp only [readLoop, dataFlat, sumSizes]
    by_cases h : rem = 0
    · subst h
      rw [if_pos rfl, if_pos (by omega)]
      simp
    · rw [if_neg h, if_neg (by omega)]
  | cons v vs ih =>
    obtain ⟨hoff, hc'⟩ := hc
    subst hoff
    have hwv : v.data.length = v.size := hw v (by simp)
    have hw' : wfData vs := fun y hy => hw y (by simp [hy])
    simp only [sumSizes, dataFlat]
    by_cases hcase : gofs < v.offset + v.size
    · have hrem := LOBuffer.remaining_pos v gofs hbg hcase
      by_cases hsub : rem ≤ v.size + v.offset - gofs
      · have hmin : min rem (v.size + v.offset - gofs) = rem :=
          Nat.min_eq_left hsub
        have hread : v.read gofs rem =
            some ((v.data.drop (gofs - v.offset)).take rem) :=
          LOBuffer.read_ok v gofs rem hbg hcase (by omega)
        simp only [readLoop, hrem, hmin, hread]
        rw [if_pos (show rem - rem = 0 by omega),
          if_pos (show rem ≤ v.offset + (v.size + sumSizes vs) - gofs by omega),
          drop_append_left _ _ _ (show gofs - v.offset ≤ v.data.length by omega),
          take_append_left _ _ _ (by rw [List.length_drop]; omega)]
      · have hmin : min rem (v.size + v.offset - gofs) =
            v.size + v.offset - gofs := Nat.min_eq_right (by omega)
        have hread : v.read gofs (v.size + v.offset - gofs) =
            some ((v.data.drop (gofs - v.offset)).take
              (v.size + v.offset - gofs)) :=
          LOBuffer.read_ok _ _ _ hbg hcase (by omega)
        have hih := ih (v.offset + v.size)
          (gofs + (v.size + v.offset - gofs))
          (rem - (v.size + v.offset - gofs)) hc' hw' (by omega)
        rw [show v.offset + v.size + sumSizes vs -
              (gofs + (v.size + v.offset - gofs)) = sumSizes vs by omega,
          show gofs + (v.size + v.offset - gofs) - (v.offset + v.size) = 0
            by omega,
          List.drop_zero] at hih
        by_cases hss : rem - (v.size + v.offset - gofs) ≤ sumSizes vs
        · rw [if_pos hss] at hih
          simp only [readLoop, hrem, hmin, hread, hih]
          rw [if_neg (show ¬(rem - (v.size + v.offset - gofs) = 0) by omega),
            if_pos (show rem ≤ v.offset + (v.size + sumSizes vs) - gofs
              by omega),
            drop_append_left _ _ _
              (show gofs - v.offset ≤ v.data.length by omega),
            take_append_split _ _ _ (by rw [List.length_drop]; omega),
            List.take_of_length_le
              (show (v.data.drop (gofs - v.offset)).length ≤
                v.size + v.offset - gofs by rw [List.length_drop]; omega),
            List.length_drop, hwv,
            show rem - (v.size - (gofs - v.offset)) =
              rem - (v.size + v.offset - gofs) by omega]
        · rw [if_neg hss] at hih
          simp only [readLoop, hrem, hmin, hread, hih]
          rw [if_neg (show ¬(rem - (v.size + v.offset - gofs) = 0) by omega),
            if_neg (show ¬(rem ≤ v.offset + (v.size + sumSizes vs) - gofs)
              by omega)]
    · have hrem := LOBuffer.remaining_neg v gofs (Or.inr (by omega))
      simp only [readLoop, hrem]
      rw [ih (v.offset + v.size) gofs rem hc' hw' (by omega)]
      have hdr : (v.data ++ dataFlat vs).drop (gofs - v.offset) =
          (dataFlat vs).drop (gofs - (v.offset + v.size)) := by
        rw [drop_append_right _ _ _ (by omega)]
        congr 1
        omega
      rw [hdr,
        show v.offset + v.size + sumSizes vs - gofs =
          v.offset + (v.size + sumSizes vs) - gofs by omega]

theorem writeLoop_eq (bs : List LOBuffer) (base gofs : Nat) (src : List Nat)
    (hc : chained base bs) (hw : wfData bs) (hbg : base ≤ gofs) :
    ∃ bs', writeLoop bs gofs src =
        (bs', decide (src.length ≤ base + sumSizes bs - gofs)) ∧
      chained base bs' ∧ wfData bs' ∧ sumSizes bs' = sumSizes bs ∧
      dataFlat bs' =
        (dataFlat bs).take (gofs - base) ++
          src.take (base + sumSizes bs - gofs) ++
          (dataFlat bs).drop ((gofs - base) + src.length) := by
  induction bs generalizing base gofs src with
  | nil =>
    refine ⟨[], ?_, trivial, fun b hb => absurd hb (List.not_mem_nil b),
      rfl, ?_⟩
    · simp only [writeLoop, sumSizes]
      rw [decide_eq_decide.mpr (show src.length = 0 ↔
        src.length ≤ base + 0 - gofs by omega)]
    · simp only [sumSizes, dataFlat, List.take_nil, List.drop_nil,
        List.append_nil, List.nil_append]
      rw [show base + 0 - gofs = 0 by omega, List.take_zero]
  | cons v vs ih =>
    obtain ⟨hoff, hc'⟩ := hc
    subst hoff
    have hwv : v.data.length = v.size := hw v (by simp)
    have hw' : wfData vs := fun y hy => hw y (by simp [hy])
    simp only [sumSizes, dataFlat]
    by_cases hcase : gofs < v.offset + v.size
    · have hrem := LOBuffer.remaining_pos v gofs hbg hcase
      by_cases hsub : src.length ≤ v.size + v.offset - gofs
      · have hmin : min src.length (v.size + v.offset - gofs) = src.length :=
          Nat.min_eq_left hsub
        have hwrite : v.write gofs src = some
            ⟨v.offset, v.size,
              LOBuffer.spliceList v.data (gofs - v.offset) src⟩ :=
          LOBuffer.write_ok v gofs src hbg hcase (by omega)
        refine ⟨⟨v.offset, v.size,
          LOBuffer.spliceList v.data (gofs - v.offset) src⟩ :: vs,
          ?_, ⟨rfl, hc'⟩, ?_, by simp [sumSizes], ?_⟩
        · simp only [writeLoop, hrem, hmin, List.take_length, hwrite]
          rw [if_pos (show src.length - src.length = 0 by omega),
            decide_eq_true (show src.length ≤
              v.offset + (v.size + sumSizes vs) - gofs by omega)]
        · intro b hb
          rcases List.mem_cons.1 hb with hb | hb
          · subst hb
            exact length_spliceList v.data (gofs - v.offset) src
              (by omega) |>.trans hwv
          · exact hw' b hb
        · simp only [dataFlat, LOBuffer.spliceList]
          rw [take_append_left _ _ _ (by omega),
            List.take_of_length_le (show src.length ≤
              v.offset + (v.size + sumSizes vs) - gofs by omega),
            drop_append_left _ _ _ (by omega)]
          simp [List.append_assoc]
      · have hmin : min src.length (v.size + v.offset - gofs) =
            v.size + v.offset - gofs := Nat.min_eq_right (by omega)
        have hwrite : v.write gofs (src.take (v.size + v.offset - gofs)) =
            some ⟨v.offset, v.size,
              LOBuffer.spliceList v.data (gofs - v.offset)
                (src.take (v.size + v.offset - gofs))⟩ :=
          LOBuffer.write_ok v gofs _ hbg hcase
            (by rw [List.length_take]; omega)
        obtain ⟨bs'', heq, hch'', hwf'', hss'', hdf''⟩ :=
          ih (v.offset + v.size) (gofs + (v.size + v.offset - gofs))
            (src.drop (v.size + v.offset - gofs)) hc' hw' (by omega)
        rw [show v.offset + v.size + sumSizes vs -
            (gofs + (v.size + v.offset - gofs)) = sumSizes vs by omega,
          List.length_drop] at heq
        rw [show gofs + (v.size + v.offset - gofs) - (v.offset + v.size) = 0
            by omega,
          show v.offset + v.size + sumSizes vs -
            (gofs + (v.size + v.offset - gofs)) = sumSizes vs by omega,
          List.take_zero, List.nil_append, List.length_drop,
          Nat.zero_add] at hdf''
        refine ⟨⟨v.offset, v.size,
          LOBuffer.spliceList v.data (gofs - v.offset)
            (src.take (v.size + v.offset - gofs))⟩ :: bs'',
          ?_, ⟨rfl, hch''⟩, ?_, by simp [sumSizes, hss''], ?_⟩
        · simp only [writeLoop, hrem, hmin, hwrite, heq]
          rw [if_neg (show ¬(src.length - (v.size + v.offset - gofs) = 0)
            by omega)]
          congr 1
          exact decide_eq_decide.mpr (by omega)
        · intro b hb
          rcases List.mem_cons.1 hb with hb | hb
          · subst hb
            exact length_spliceList v.data (gofs - v.offset) _
              (by rw [List.length_take]; omega) |>.trans hwv
          · exact hwf'' b hb
        · simp only [dataFlat, LOBuffer.spliceList, hdf'']
          rw [List.length_take, Nat.min_eq_left (by omega : v.size + v.offset - gofs ≤ src.length),
            List.drop_eq_nil_of_le
              (show v.data.length ≤ (gofs - v.offset) + (v.size + v.offset - gofs) by omega),
            take_append_left _ _ _ (by omega),
            show v.offset + (v.size + sumSizes vs) - gofs =
              (v.size + v.offset - gofs) + sumSizes vs by omega,
            List.take_add,
            drop_append_right _ _ _ (by omega),
            show gofs - v.offset + src.length - v.data.length =
              src.length - (v.size + v.offset - gofs) by omega]
          simp [List.append_assoc]
    · have hrem := LOBuffer.remaining_neg v gofs (Or.inr (by omega))
      obtain ⟨bs'', heq, hch'', hwf'', hss'', hdf''⟩ :=
        ih (v.offset + v.size) gofs src hc' hw' (by omega)
      refine ⟨v :: bs'', ?_, ⟨rfl, hch''⟩, ?_, by simp [sumSizes, hss''], ?_⟩
      · simp only [writeLoop, hrem, heq]
        congr 1
        exact decide_eq_decide.mpr (by omega)
      · intro b hb
        rcases List.mem_cons.1 hb with hb | hb
        · subst hb; exact hwv
        · exact hwf'' b hb
      · simp only [dataFlat, hdf'']
        rw [take_append_split _ _ _ (by omega),
          drop_append_right _ _ _ (by omega), hwv,
          show gofs - v.offset - v.size = gofs - (v.offset + v.size) by omega,
          show gofs - v.offset + src.length - v.size =
            gofs - (v.offset + v.size) + src.length by omega,
          show v.offset + (v.size + sumSizes vs) - gofs =
            v.offset + v.size + sumSizes vs - gofs by omega]
        simp [List.append_assoc]

theorem LOBuffer.remaining_isSome (b : LOBuffer) (o : Nat) :
    (b.remaining o).isSome = true ↔ (b.offset ≤ o ∧ o < b.offset + b.size) := by
  rw [LOBuffer.remaining]
  by_cases h : b.within o = true
  · rw [if_pos h]
    simpa using (LOBuffer.within_iff b o).1 h
  · rw [if_neg h]
    simp only [Option.isSome_none, Bool.false_eq_true, false_iff]
    intro hh
    exact h ((LOBuffer.within_iff b o).2 hh)

theorem countP_remaining_zero_lt (bs : List LOBuffer) (base o : Nat)
    (hc : chained base bs) (ho : o < base) :
    bs.countP (fun b => (b.remaining o).isSome) = 0 := by
  rw [List.countP_eq_zero]
  intro b hb
  simp [remaining_none_before bs base o hc ho b hb]

theorem countP_remaining_zero_ge (bs : List LOBuffer) (base o : Nat)
    (hc : chained base bs) (ho : base + sumSizes bs ≤ o) :
    bs.countP (fun b => (b.remaining o).isSome) = 0 := by
  rw [List.countP_eq_zero]
  intro b hb
  simp [remaining_none_after bs base o hc ho b hb]

theorem countP_remaining_one (bs : List LOBuffer) (base o : Nat)
    (hc : chained base bs) (h1 : base ≤ o) (h2 : o < base + sumSizes bs) :
    bs.countP (fun b => (b.remaining o).isSome) = 1 := by
  induction bs generalizing base with
  | nil => simp [sumSizes] at h2; omega
  | cons v vs ih =>
    obtain ⟨hoff, hc'⟩ := hc
    subst hoff
    rw [List.countP_cons]
    by_cases hcase : o < v.offset + v.size
    · have hs := LOBuffer.remaining_pos v o h1 hcase
      have h0 := countP_remaining_zero_lt vs (v.offset + v.size) o hc' hcase
      simp [hs, h0]
    · have hn := LOBuffer.remaining_neg v o (Or.inr (by omega))
      have hone := ih (v.offset + v.size) hc' (by omega)
        (by simp only [sumSizes] at h2; omega)
      simp [hn, hone]

/-- C3: `VMemory::new` assigns each segment's base as the running prefix
sum of the preceding lengths; `total_size` equals the sum of all segment
lengths; for every offset `o` in `[0, total_size)` exactly one segment's
`remaining o` is `Some`, with value `base_offset + length - o`
(equivalently `length - (o - base)`), every other segment returning
`None`; and for `o ≥ total_size` every segment returns `None`. -/
theorem claim_C3_prefix_sum_membership (bufs : List LOBuffer) (o : Nat) :
    (VMemory.new bufs).size = sumSizes bufs ∧
    (o < (VMemory.new bufs).size →
      ((VMemory.new bufs).vrams.countP
          (fun b => (b.remaining o).isSome) = 1 ∧
        ∀ b ∈ (VMemory.new bufs).vrams, (b.remaining o).isSome →
          b.remaining o = some (b.size + b.offset - o) ∧
          b.size + b.offset - o = b.size - (o - b.offset))) ∧
    ((VMemory.new bufs).size ≤ o →
      ∀ b ∈ (VMemory.new bufs).vrams, b.remaining o = none) := by
  have hsz : (VMemory.new bufs).size = sumSizes bufs := rfl
  refine ⟨rfl, ?_, ?_⟩
  · intro ho
    rw [hsz] at ho
    constructor
    · exact countP_remaining_one (assignOffsets bufs 0) 0 o
        (chained_assignOffsets bufs 0) (Nat.zero_le o)
        (by rw [sumSizes_assignOffsets]; omega)
    · intro b hb hsome
      obtain ⟨hb1, hb2⟩ := (LOBuffer.remaining_isSome b o).1 hsome
      exact ⟨LOBuffer.remaining_pos b o hb1 hb2, by omega⟩
  · intro ho b hb
    rw [hsz] at ho
    exact remaining_none_after (assignOffsets bufs 0) 0 o
      (chained_assignOffsets bufs 0)
      (by rw [sumSizes_assignOffsets]; omega) b hb

/-- C8: a segment `read`/`write` fails (transferring and mutating
nothing) iff the offset lies outside `[base_offset, base_offset+size)`
or the span `(offset - base_offset) + data.len()` exceeds the segment's
size; otherwise it succeeds and transfers exactly `data.len()` bytes. -/
theorem claim_C8_segment_bounds (b : LOBuffer) (o len : Nat)
    (src : List Nat) (hw : b.data.length = b.size) :
    (b.read o len = none ↔
      (¬(b.offset ≤ o ∧ o < b.offset + b.size) ∨
        b.size < (o - b.offset) + len)) ∧
    (b.write o src = none ↔
      (¬(b.offset ≤ o ∧ o < b.offset + b.size) ∨
        b.size < (o - b.offset) + src.length)) ∧
    (∀ bytes, b.read o len = some bytes → bytes.length = len) ∧
    (∀ b2, b.write o src = some b2 →
      b2.data.length = b.size ∧
      (b2.data.drop (o - b.offset)).take src.length = src) := by
  by_cases hwi : b.within o = true
  · obtain ⟨h1, h2⟩ := (LOBuffer.within_iff b o).1 hwi
    refine ⟨?_, ?_, ?_, ?_⟩
    · rw [LOBuffer.read, if_pos hwi]
      by_cases hb : b.size < (o - b.offset) + len
      · rw [if_pos hb]
        simp [hb]
      · rw [if_neg hb]
        simp only [reduceCtorEq, false_iff]
        intro hcon
        rcases hcon with hcon | hcon
        · exact hcon ⟨h1, h2⟩
        · exact hb hcon
    · rw [LOBuffer.write, if_pos hwi]
      by_cases hb : b.size < (o - b.offset) + src.length
      · rw [if_pos hb]
        simp [hb]
      · rw [if_neg hb]
        simp only [reduceCtorEq, false_iff]
        intro hcon
        rcases hcon with hcon | hcon
        · exact hcon ⟨h1, h2⟩
        · exact hb hcon
    · intro bytes hbe
      rw [LOBuffer.read, if_pos hwi] at hbe
      by_cases hb : b.size < (o - b.offset) + len
      · rw [if_pos hb] at hbe
        exact absurd hbe (by simp)
      · rw [if_neg hb] at hbe
        have := Option.some.inj hbe
        rw [← this, List.length_take, List.length_drop]
        omega
    · intro b2 hbe
      rw [LOBuffer.write, if_pos hwi] at hbe
      by_cases hb : b.size < (o - b.offset) + src.length
      · rw [if_pos hb] at hbe
        exact absurd hbe (by simp)
      · rw [if_neg hb] at hbe
        have hbeq := Option.some.inj hbe
        constructor
        · rw [← hbeq]
          exact (length_spliceList b.data (o - b.offset) src
            (by omega)).trans hw
        · rw [← hbeq]
          show ((LOBuffer.spliceList b.data (o - b.offset) src).drop
            (o - b.offset)).take src.length = src
          rw [LOBuffer.spliceList, List.append_assoc,
            drop_append_right _ _ _
              (by rw [List.length_take]; omega),
            List.length_take,
            show o - b.offset - min (o - b.offset) b.data.length = 0
              by omega,
            List.drop_zero,
            take_append_left _ _ _ (by omega), List.take_length]
  · have hn : ¬(b.offset ≤ o ∧ o < b.offset + b.size) :=
      fun hh => hwi ((LOBuffer.within_iff b o).2 hh)
    refine ⟨?_, ?_, ?_, ?_⟩
    · rw [LOBuffer.read, if_neg hwi]
      simp [hn]
    · rw [LOBuffer.write, if_neg hwi]
      simp [hn]
    · intro bytes hbe
      rw [LOBuffer.read, if_neg hwi] at hbe
      exact absurd hbe (by simp)
    · intro b2 hbe
      rw [LOBuffer.write, if_neg hwi] at hbe
      exact absurd hbe (by simp)

/-- C9: once a fetch completes with the abort completion code, the
`io_task` loop breaks immediately: over any completion trace whose
first abort code follows `pre.length` non-abort completions, the task
submits exactly `pre.length + 1` fetch/commit commands — none after the
abort, whatever completions would follow — and reaches its terminal
aborted state. -/
theorem ioTaskRun_cons_ne (x : Int) (L : List Int)
    (hx : x ≠ UBLK_IO_RES_ABORT) :
    ioTaskRun (x :: L) = (1 + (ioTaskRun L).1, (ioTaskRun L).2) := by
  simp only [ioTaskRun, if_neg hx]

theorem claim_C9_abort_terminal (pre post : List Int)
    (hpre : ∀ r ∈ pre, r ≠ UBLK_IO_RES_ABORT) :
    ioTaskRun (pre ++ UBLK_IO_RES_ABORT :: post) = (pre.length + 1, true) := by
  induction pre with
  | nil => simp [ioTaskRun]
  | cons r rs ih =>
    have hr : r ≠ UBLK_IO_RES_ABORT := hpre r (by simp)
    have hih := ih (fun x hx => hpre x (by simp [hx]))
    rw [List.cons_append, ioTaskRun_cons_ne r _ hr, hih, List.length_cons,
      Nat.add_comm 1 (rs.length + 1)]

/-- C1: for every segment list composed by `VMemory::new` and every
in-range request, `VMemory::read` and `VMemory::write` transfer bytes
byte-for-byte identical to the same operation on a single monolithic
buffer holding the concatenation of the segments' contents (including
spans crossing segment boundaries). -/
theorem claim_C1_monolithic_refinement (bufs : List LOBuffer)
    (hw : wfData bufs) (o len : Nat) (src : List Nat) :
    (o + len ≤ (VMemory.new bufs).size →
      (VMemory.new bufs).read o len =
        monoRead (dataFlat (VMemory.new bufs).vrams) o len) ∧
    (o + src.length ≤ (VMemory.new bufs).size →
      ((VMemory.new bufs).write o src).2 = true ∧
      monoWrite (dataFlat (VMemory.new bufs).vrams) o src =
        some (dataFlat ((VMemory.new bufs).write o src).1)) := by
  have hch := chained_assignOffsets bufs 0
  have hwa := wfData_assignOffsets bufs 0 hw
  have hlen : (dataFlat (assignOffsets bufs 0)).length = sumSizes bufs :=
    (dataFlat_length _ hwa).trans (sumSizes_assignOffsets bufs 0)
  constructor
  · intro h
    rw [show (VMemory.new bufs).size = sumSizes bufs from rfl] at h
    show readLoop (assignOffsets bufs 0) o len =
      monoRead (dataFlat (assignOffsets bufs 0)) o len
    rw [readLoop_eq _ 0 o len hch hwa (Nat.zero_le o),
      sumSizes_assignOffsets,
      if_pos (show len ≤ 0 + sumSizes bufs - o by omega)]
    simp only [monoRead]
    rw [if_pos (by rw [hlen]; omega), Nat.sub_zero]
  · intro h
    rw [show (VMemory.new bufs).size = sumSizes bufs from rfl] at h
    obtain ⟨bs', heq, _, hwf', _, hdf⟩ :=
      writeLoop_eq (assignOffsets bufs 0) 0 o src hch hwa (Nat.zero_le o)
    rw [sumSizes_assignOffsets] at heq hdf
    rw [decide_eq_true
      (show src.length ≤ 0 + sumSizes bufs - o by omega)] at heq
    show (writeLoop (assignOffsets bufs 0) o src).2 = true ∧
      monoWrite (dataFlat (assignOffsets bufs 0)) o src =
        some (dataFlat (writeLoop (assignOffsets bufs 0) o src).1)
    rw [heq]
    refine ⟨rfl, ?_⟩
    simp only [monoWrite]
    rw [if_pos (by rw [hlen]; omega)]
    congr 1
    rw [hdf]
    simp only [Nat.sub_zero]
    rw [List.take_of_length_le
      (show src.length ≤ 0 + sumSizes bufs - o by omega)]

/-- C2 (amended): a write whose span exceeds `total_size` (with a
nonempty payload) fails with the I/O-error return, but the in-range
prefix `[O, total_size)` HAS been written when the failure is reported:
the final contents are the old contents up to `O` followed by the part
of the payload that fits; only the bytes at or beyond `total_size` are
not transferred. -/
theorem claim_C2_out_of_range_write (bufs : List LOBuffer)
    (hw : wfData bufs) (o : Nat) (src : List Nat)
    (hpos : 0 < src.length)
    (hover : (VMemory.new bufs).size < o + src.length) :
    ((VMemory.new bufs).write o src).2 = false ∧
    dataFlat ((VMemory.new bufs).write o src).1 =
      (dataFlat (VMemory.new bufs).vrams).take o ++
        src.take ((VMemory.new bufs).size - o) := by
  have hch := chained_assignOffsets bufs 0
  have hwa := wfData_assignOffsets bufs 0 hw
  have hlen : (dataFlat (assignOffsets bufs 0)).length = sumSizes bufs :=
    (dataFlat_length _ hwa).trans (sumSizes_assignOffsets bufs 0)
  rw [show (VMemory.new bufs).size = sumSizes bufs from rfl] at hover ⊢
  obtain ⟨bs', heq, _, _, _, hdf⟩ :=
    writeLoop_eq (assignOffsets bufs 0) 0 o src hch hwa (Nat.zero_le o)
  rw [sumSizes_assignOffsets] at heq hdf
  rw [decide_eq_false
    (show ¬(src.length ≤ 0 + sumSizes bufs - o) by omega)] at heq
  show (writeLoop (assignOffsets bufs 0) o src).2 = false ∧
    dataFlat (writeLoop (assignOffsets bufs 0) o src).1 =
      (dataFlat (assignOffsets bufs 0)).take o ++
        src.take (sumSizes bufs - o)
  rw [heq]
  refine ⟨rfl, ?_⟩
  rw [hdf]
  simp only [Nat.sub_zero, Nat.zero_add]
  rw [List.drop_eq_nil_of_le (by rw [hlen]; omega), List.append_nil]

/-- C4: writing a byte pattern of length `L` at any in-range offset `O`
(`O + L ≤ total_size`) succeeds, and reading back `[O, O+L)` returns
bytes identical to the pattern written — covering spans within one
segment, spans crossing segment boundaries, and `L = total_size` at
`O = 0`. -/
theorem claim_C4_roundtrip (bufs : List LOBuffer) (hw : wfData bufs)
    (o : Nat) (src : List Nat)
    (h : o + src.length ≤ (VMemory.new bufs).size) :
    ((VMemory.new bufs).write o src).2 = true ∧
    readLoop ((VMemory.new bufs).write o src).1 o src.length = some src := by
  have hch := chained_assignOffsets bufs 0
  have hwa := wfData_assignOffsets bufs 0 hw
  have hlen : (dataFlat (assignOffsets bufs 0)).length = sumSizes bufs :=
    (dataFlat_length _ hwa).trans (sumSizes_assignOffsets bufs 0)
  rw [show (VMemory.new bufs).size = sumSizes bufs from rfl] at h
  obtain ⟨bs', heq, hch', hwf', hss', hdf⟩ :=
    writeLoop_eq (assignOffsets bufs 0) 0 o src hch hwa (Nat.zero_le o)
  rw [sumSizes_assignOffsets] at heq hss' hdf
  rw [decide_eq_true
    (show src.length ≤ 0 + sumSizes bufs - o by omega)] at heq
  show (writeLoop (assignOffsets bufs 0) o src).2 = true ∧
    readLoop (writeLoop (assignOffsets bufs 0) o src).1 o src.length =
      some src
  rw [heq]
  refine ⟨rfl, ?_⟩
  rw [readLoop_eq bs' 0 o src.length hch' hwf' (Nat.zero_le o), hss',
    if_pos (show src.length ≤ 0 + sumSizes bufs - o by omega)]
  congr 1
  rw [hdf]
  simp only [Nat.sub_zero]
  rw [List.take_of_length_le
      (show src.length ≤ 0 + sumSizes bufs - o by omega),
    List.append_assoc,
    drop_append_right _ _ _ (by rw [List.length_take]; omega),
    List.length_take,
    show o - min o (dataFlat (assignOffsets bufs 0)).length = 0
      by rw [hlen]; omega,
    List.drop_zero,
    take_append_left _ _ _ (Nat.le_refl src.length), List.take_length]

theorem remaining_zero_size (z : LOBuffer) (hz : z.size = 0) (o : Nat) :
    z.remaining o = none := by
  rcases Nat.lt_or_ge o z.offset with h | h
  · exact LOBuffer.remaining_neg z o (Or.inl h)
  · exact LOBuffer.remaining_neg z o (Or.inr (by omega))

theorem insertAt_zero (l : List α) (a : α) : insertAt l 0 a = a :: l := by
  simp [insertAt]

theorem insertAt_cons_succ (v : α) (l : List α) (n : Nat) (a : α) :
    insertAt (v :: l) (n + 1) a = v :: insertAt l n a := by
  simp [insertAt]

theorem insertAt_append_length (as bs : List α) (a : α) :
    insertAt (as ++ bs) as.length a = as ++ a :: bs := by
  rw [insertAt, List.take_left, List.drop_left]

theorem readLoop_zero_insert (as bs : List LOBuffer) (z : LOBuffer)
    (hz : z.size = 0) (g r : Nat) :
    readLoop (as ++ z :: bs) g r = readLoop (as ++ bs) g r := by
  induction as generalizing g r with
  | nil =>
    simp only [List.nil_append, readLoop, remaining_zero_size z hz g]
  | cons v as ih =>
    cases hv : v.remaining g with
    | none =>
      simp only [List.cons_append, readLoop, hv, List.append_eq]
      exact ih g r
    | some lr =>
      simp only [List.cons_append, readLoop, hv, List.append_eq]
      cases hr : v.read g (min r lr) with
      | none => simp only [hr]
      | some bytes =>
        simp only [hr]
        by_cases hb : r - min r lr = 0
        · rw [if_pos hb, if_pos hb]
        · rw [if_neg hb, if_neg hb, ih]

theorem writeLoop_zero_insert (as bs : List LOBuffer) (z : LOBuffer)
    (hz : z.size = 0) (g : Nat) (s : List Nat) :
    writeLoop (as ++ z :: bs) g s =
      (insertAt (writeLoop (as ++ bs) g s).1 as.length z,
       (writeLoop (as ++ bs) g s).2) := by
  induction as generalizing g s with
  | nil =>
    simp only [List.nil_append, writeLoop, remaining_zero_size z hz g,
      List.length_nil, insertAt_zero]
  | cons v as ih =>
    cases hv : v.remaining g with
    | none =>
      simp only [List.cons_append, writeLoop, hv, List.append_eq, ih g s,
        List.length_cons, insertAt_cons_succ]
    | some lr =>
      cases hw2 : v.write g (s.take (min s.length lr)) with
      | none =>
        simp only [List.cons_append, writeLoop, hv, hw2, List.append_eq,
          List.length_cons, insertAt_cons_succ, insertAt_append_length]
      | some v2 =>
        by_cases hb : s.length - min s.length lr = 0
        · simp only [List.cons_append, writeLoop, hv, hw2, List.append_eq,
            if_pos hb, List.length_cons, insertAt_cons_succ,
            insertAt_append_length]
        · simp only [List.cons_append, writeLoop, hv, hw2, List.append_eq,
            if_neg hb, List.length_cons,
            ih (g + min s.length lr) (s.drop (min s.length lr)),
            insertAt_cons_succ]

/-- C10: a zero-size segment reports `None` membership at every offset,
so it is skipped by every read and write: composing with it yields the
same total size, the identical read results, and the identical write
results (segment count aside — the zero-size segment itself sits
unchanged, with its prefix-sum base, at its position in the output
list). -/
theorem claim_C10_zero_segment_identity (xs ys : List LOBuffer)
    (z : LOBuffer) (hz : z.size = 0) :
    (∀ o, z.remaining o = none) ∧
    (VMemory.new (xs ++ z :: ys)).size = (VMemory.new (xs ++ ys)).size ∧
    (∀ o l, (VMemory.new (xs ++ z :: ys)).read o l =
      (VMemory.new (xs ++ ys)).read o l) ∧
    (∀ o s, (VMemory.new (xs ++ z :: ys)).write o s =
      (insertAt ((VMemory.new (xs ++ ys)).write o s).1 xs.length
        { z with offset := sumSizes xs },
       ((VMemory.new (xs ++ ys)).write o s).2)) := by
  have hvr : (VMemory.new (xs ++ z :: ys)).vrams =
      assignOffsets xs 0 ++
        { z with offset := sumSizes xs } ::
          assignOffsets ys (sumSizes xs) := by
    show assignOffsets (xs ++ z :: ys) 0 = _
    rw [assignOffsets_append]
    simp only [assignOffsets, Nat.zero_add, hz, Nat.add_zero]
  have hvr2 : (VMemory.new (xs ++ ys)).vrams =
      assignOffsets xs 0 ++ assignOffsets ys (sumSizes xs) := by
    show assignOffsets (xs ++ ys) 0 = _
    rw [assignOffsets_append]
    simp only [Nat.zero_add]
  have hzsz : ({ z with offset := sumSizes xs } : LOBuffer).size = 0 := hz
  refine ⟨fun o => remaining_zero_size z hz o, ?_, ?_, ?_⟩
  · show sumSizes (xs ++ z :: ys) = sumSizes (xs ++ ys)
    rw [sumSizes_append, sumSizes_append]
    simp [sumSizes, hz]
  · intro o l
    show readLoop (VMemory.new (xs ++ z :: ys)).vrams o l =
      readLoop (VMemory.new (xs ++ ys)).vrams o l
    rw [hvr, hvr2]
    exact readLoop_zero_insert _ _ _ hzsz o l
  · intro o s
    show writeLoop (VMemory.new (xs ++ z :: ys)).vrams o s =
      (insertAt (writeLoop (VMemory.new (xs ++ ys)).vrams o s).1 xs.length
        { z with offset := sumSizes xs },
       (writeLoop (VMemory.new (xs ++ ys)).vrams o s).2)
    rw [hvr, hvr2, writeLoop_zero_insert _ _ _ hzsz o s,
      length_assignOffsets]

/-- C5 (amended): `handle_io_cmd` special-cases only FLUSH as a no-op
success — it returns the clipped length (through the `as i32` cast) and
leaves every segment untouched, regardless of backing-store state.
DISCARD is NOT handled: like any other unknown opcode it falls to the
default arm and returns `-EINVAL` whenever the clipped length is
positive. -/
theorem claim_C5_flush_noop_discard_einval (devSize : Nat) (iod : IoDesc)
    (vrams : List LOBuffer) (buf : List Nat) :
    (iod.op_flags % 256 = UBLK_IO_OP_FLUSH →
      handleIoCmd devSize iod vrams buf =
        (i32ofNat (clippedLength devSize iod), vrams)) ∧
    (iod.op_flags % 256 = UBLK_IO_OP_DISCARD →
      0 < clippedLength devSize iod →
      handleIoCmd devSize iod vrams buf = (NEG_EINVAL, vrams)) := by
  constructor
  · intro hop
    by_cases hg : 0 < clippedLength devSize iod
    · simp [handleIoCmd, hg, hop, UBLK_IO_OP_FLUSH, UBLK_IO_OP_READ,
        UBLK_IO_OP_WRITE]
    · simp [handleIoCmd, hg]
  · intro hop hg
    simp [handleIoCmd, hg, hop, UBLK_IO_OP_DISCARD, UBLK_IO_OP_READ,
      UBLK_IO_OP_WRITE, UBLK_IO_OP_FLUSH]

/-- C5 counterexample: a DISCARD command (opcode 3) on a 350-byte
device, one sector at offset 0.  The claim predicts success with the
clipped length 350; `handle_io_cmd` returns `-EINVAL`. -/
theorem claim_C5_counterexample :
    (handleIoCmd 350 ⟨3, 1, 0⟩ [] []).1 = NEG_EINVAL ∧
    clippedLength 350 ⟨3, 1, 0⟩ = 350 ∧
    NEG_EINVAL ≠ (350 : Int) := by decide

/-- C6 (amended): a command whose opcode is none of READ, WRITE, FLUSH,
DISCARD returns `-EINVAL` whenever its clipped length is positive; when
the clipped length is zero the opcode is never inspected and the
function reports success with 0 bytes processed instead. -/
theorem claim_C6_unknown_opcode (devSize : Nat) (iod : IoDesc)
    (vrams : List LOBuffer) (buf : List Nat)
    (h0 : iod.op_flags % 256 ≠ UBLK_IO_OP_READ)
    (h1 : iod.op_flags % 256 ≠ UBLK_IO_OP_WRITE)
    (h2 : iod.op_flags % 256 ≠ UBLK_IO_OP_FLUSH)
    (_h3 : iod.op_flags % 256 ≠ UBLK_IO_OP_DISCARD) :
    (0 < clippedLength devSize iod →
      handleIoCmd devSize iod vrams buf = (NEG_EINVAL, vrams)) ∧
    (clippedLength devSize iod = 0 →
      handleIoCmd devSize iod vrams buf = (0, vrams)) := by
  constructor
  · intro hg
    simp [handleIoCmd, hg, h0, h1, h2]
  · intro hg
    simp [handleIoCmd, hg, i32ofNat]

/-- C6 counterexample: an unknown opcode (7) whose clipped length is
zero (offset clipped to the device size).  The claim says `-EINVAL`
"including commands whose clipped length is zero"; the code returns 0
(success) without inspecting the opcode. -/
theorem claim_C6_counterexample :
    (handleIoCmd 350 ⟨7, 1, 1000⟩ [] []).1 = 0 ∧
    clippedLength 350 ⟨7, 1, 1000⟩ = 0 ∧
    (0 : Int) ≠ NEG_EINVAL := by decide

/-- C7 (amended): the dispatch computes
`offset = min(device_size, (start_sector * 512) mod 2^64)` (the shift
`start_sector << 9` is a wrapping 64-bit shift) and
`length = (sector_count * 512) mod 2^32` (wrapping 32-bit shift), clips
`length` to `device_size - offset` whenever
`offset + length >= device_size`, immediately reports success with 0
bytes processed — touching no segment — when the clipped length is 0,
and otherwise returns either the clipped length (through the `as i32`
cast) on success or one of the two error codes `-EIO` / `-EINVAL`. -/
theorem claim_C7_clipping (devSize : Nat) (iod : IoDesc)
    (vrams : List LOBuffer) (buf : List Nat) :
    clippedOffset devSize iod =
      min devSize ((iod.start_sector * 512) % 2 ^ 64) ∧
    (devSize ≤ clippedOffset devSize iod + (iod.nr_sectors * 512) % 2 ^ 32 →
      clippedLength devSize iod = devSize - clippedOffset devSize iod) ∧
    (¬devSize ≤ clippedOffset devSize iod + (iod.nr_sectors * 512) % 2 ^ 32 →
      clippedLength devSize iod = (iod.nr_sectors * 512) % 2 ^ 32) ∧
    (clippedLength devSize iod = 0 →
      handleIoCmd devSize iod vrams buf = (0, vrams)) ∧
    ((handleIoCmd devSize iod vrams buf).1 =
        i32ofNat (clippedLength devSize iod) ∨
      (handleIoCmd devSize iod vrams buf).1 = EIO_NEG ∨
      (handleIoCmd devSize iod vrams buf).1 = NEG_EINVAL) := by
  refine ⟨rfl, ?_, ?_, ?_, ?_⟩
  · intro h
    rw [clippedLength, if_pos h]
  · intro h
    rw [clippedLength, if_neg h]
  · intro hg
    simp [handleIoCmd, hg, i32ofNat]
  · by_cases hg : 0 < clippedLength devSize iod
    · by_cases h0 : iod.op_flags % 256 = UBLK_IO_OP_READ
      · cases hr : readLoop vrams (clippedOffset devSize iod)
            (clippedLength devSize iod) with
        | none => simp [handleIoCmd, hg, h0, hr]
        | some bytes => simp [handleIoCmd, hg, h0, hr]
      · by_cases h1 : iod.op_flags % 256 = UBLK_IO_OP_WRITE
        · by_cases hw2 : (writeLoop vrams (clippedOffset devSize iod)
              (buf.take (clippedLength devSize iod))).2 = true
          · simp [handleIoCmd, hg, h0, h1, hw2, UBLK_IO_OP_READ,
              UBLK_IO_OP_WRITE]
          · simp [handleIoCmd, hg, h0, h1, hw2, UBLK_IO_OP_READ,
              UBLK_IO_OP_WRITE]
        · by_cases h2 : iod.op_flags % 256 = UBLK_IO_OP_FLUSH
          · simp [handleIoCmd, hg, h0, h1, h2, UBLK_IO_OP_READ,
              UBLK_IO_OP_WRITE, UBLK_IO_OP_FLUSH]
          · simp [handleIoCmd, hg, h0, h1, h2]
    · simp [handleIoCmd, hg]

/-- C7 counterexample: `start_sector = 2^55` on a 1024-byte device (a
FLUSH of one sector).  The claim's formula
`offset = min(device_size, start_sector * 512)` gives offset 1024 and a
clipped length of 0, so it predicts an immediate success with 0 bytes;
the code's wrapping 64-bit shift gives offset 0 and length 512, and the
call returns 512. -/
theorem claim_C7_counterexample :
    claimOffsetSpec 1024 ⟨2, 1, 2 ^ 55⟩ = 1024 ∧
    claimLengthSpec 1024 ⟨2, 1, 2 ^ 55⟩ = 0 ∧
    clippedOffset 1024 ⟨2, 1, 2 ^ 55⟩ = 0 ∧
    clippedLength 1024 ⟨2, 1, 2 ^ 55⟩ = 512 ∧
    (handleIoCmd 1024 ⟨2, 1, 2 ^ 55⟩ [] []).1 = 512 ∧
    (512 : Int) ≠ 0 := by decide

/-- C2 counterexample: segments of lengths [100, 50, 200] (total 350),
all zero-filled.  A write of `[7, 7]` at global offset 349 returns the
I/O-error flag, as the claim says — but byte 349 (the last byte of
segment 2) HAS been mutated from 0 to 7, contradicting "performs no
mutation of any backing byte anywhere". -/
theorem claim_C2_counterexample :
    ((VMemory.new [⟨0, 100, List.replicate 100 0⟩,
        ⟨0, 50, List.replicate 50 0⟩,
        ⟨0, 200, List.replicate 200 0⟩]).write 349 [7, 7]).2 = false ∧
    (dataFlat ((VMemory.new [⟨0, 100, List.replicate 100 0⟩,
        ⟨0, 50, List.replicate 50 0⟩,
        ⟨0, 200, List.replicate 200 0⟩]).write 349 [7, 7]).1).getD 349 0
      = 7 ∧
    (dataFlat (VMemory.new [⟨0, 100, List.replicate 100 0⟩,
        ⟨0, 50, List.replicate 50 0⟩,
        ⟨0, 200, List.replicate 200 0⟩]).vrams).getD 349 0 = 0 := by
  decide

/-! ## Witnesses -/

theorem claim_C1_witness :
    1 + 2 ≤ (VMemory.new [⟨0, 2, [1, 2]⟩, ⟨0, 1, [3]⟩]).size ∧
    (VMemory.new [⟨0, 2, [1, 2]⟩, ⟨0, 1, [3]⟩]).read 1 2 =
      monoRead (dataFlat (VMemory.new [⟨0, 2, [1, 2]⟩, ⟨0, 1, [3]⟩]).vrams)
        1 2 :=
  ⟨by decide,
   (claim_C1_monolithic_refinement [⟨0, 2, [1, 2]⟩, ⟨0, 1, [3]⟩]
      (by unfold wfData; decide) 1 2 []).1 (by decide)⟩

theorem claim_C2_witness :
    0 < ([5, 5] : List Nat).length ∧
    (VMemory.new [⟨0, 2, [0, 0]⟩]).size < 1 + ([5, 5] : List Nat).length ∧
    ((VMemory.new [⟨0, 2, [0, 0]⟩]).write 1 [5, 5]).2 = false :=
  ⟨by decide, by decide,
   (claim_C2_out_of_range_write [⟨0, 2, [0, 0]⟩] (by unfold wfData; decide)
      1 [5, 5] (by decide) (by decide)).1⟩

theorem claim_C3_witness :
    (VMemory.new [⟨0, 100, []⟩, ⟨0, 50, []⟩, ⟨0, 200, []⟩]).size = 350 ∧
    (VMemory.new [⟨0, 100, []⟩, ⟨0, 50, []⟩, ⟨0, 200, []⟩]).vrams.countP
      (fun b => (b.remaining 120).isSome) = 1 :=
  ⟨by decide,
   ((claim_C3_prefix_sum_membership
      [⟨0, 100, []⟩, ⟨0, 50, []⟩, ⟨0, 200, []⟩] 120).2.1 (by decide)).1⟩

theorem claim_C4_witness :
    1 + 2 ≤ (VMemory.new [⟨0, 2, [0, 0]⟩, ⟨0, 1, [0]⟩]).size ∧
    readLoop ((VMemory.new [⟨0, 2, [0, 0]⟩, ⟨0, 1, [0]⟩]).write 1 [8, 9]).1
      1 ([8, 9] : List Nat).length = some [8, 9] :=
  ⟨by decide,
   (claim_C4_roundtrip [⟨0, 2, [0, 0]⟩, ⟨0, 1, [0]⟩]
      (by unfold wfData; decide) 1 [8, 9] (by decide)).2⟩

theorem claim_C5_witness :
    (⟨2, 1, 0⟩ : IoDesc).op_flags % 256 = UBLK_IO_OP_FLUSH ∧
    handleIoCmd 350 ⟨2, 1, 0⟩ [] [] =
      (i32ofNat (clippedLength 350 ⟨2, 1, 0⟩), []) :=
  ⟨by decide,
   (claim_C5_flush_noop_discard_einval 350 ⟨2, 1, 0⟩ [] []).1 (by decide)⟩

theorem claim_C6_witness :
    0 < clippedLength 350 ⟨9, 1, 0⟩ ∧
    handleIoCmd 350 ⟨9, 1, 0⟩ [] [] = (NEG_EINVAL, []) :=
  ⟨by decide,
   (claim_C6_unknown_opcode 350 ⟨9, 1, 0⟩ [] [] (by decide) (by decide)
      (by decide) (by decide)).1 (by decide)⟩

theorem claim_C7_witness :
    clippedLength 100 ⟨0, 0, 0⟩ = 0 ∧
    handleIoCmd 100 ⟨0, 0, 0⟩ [] [] = (0, []) :=
  ⟨by decide,
   (claim_C7_clipping 100 ⟨0, 0, 0⟩ [] []).2.2.2.1 (by decide)⟩

theorem claim_C8_witness :
    (⟨10, 4, [1, 2, 3, 4]⟩ : LOBuffer).data.length =
      (⟨10, 4, [1, 2, 3, 4]⟩ : LOBuffer).size ∧
    ((⟨10, 4, [1, 2, 3, 4]⟩ : LOBuffer).read 12 2 = none ↔
      (¬((⟨10, 4, [1, 2, 3, 4]⟩ : LOBuffer).offset ≤ 12 ∧
          12 < (⟨10, 4, [1, 2, 3, 4]⟩ : LOBuffer).offset +
            (⟨10, 4, [1, 2, 3, 4]⟩ : LOBuffer).size) ∨
        (⟨10, 4, [1, 2, 3, 4]⟩ : LOBuffer).size <
          (12 - (⟨10, 4, [1, 2, 3, 4]⟩ : LOBuffer).offset) + 2)) :=
  ⟨rfl, (claim_C8_segment_bounds ⟨10, 4, [1, 2, 3, 4]⟩ 12 2 [7] rfl).1⟩

theorem claim_C9_witness :
    ioTaskRun ([0, 512] ++ UBLK_IO_RES_ABORT :: [0]) = (3, true) :=
  claim_C9_abort_terminal [0, 512] [0] (by decide)

theorem claim_C10_witness :
    (⟨0, 0, []⟩ : LOBuffer).size = 0 ∧
    (VMemory.new ([⟨0, 3, [1, 2, 3]⟩] ++
        (⟨0, 0, []⟩ : LOBuffer) :: [⟨0, 2, [4, 5]⟩])).size =
      (VMemory.new ([⟨0, 3, [1, 2, 3]⟩] ++ [⟨0, 2, [4, 5]⟩])).size :=
  ⟨rfl,
   (claim_C10_zero_segment_identity [⟨0, 3, [1, 2, 3]⟩] [⟨0, 2, [4, 5]⟩]
      ⟨0, 0, []⟩ rfl).2.1⟩
